import Mathlib

/-!
Verification development for the GithubLedger repository: a shallow
embedding of the TypeScript expense-tracker code (`Expense`,
`ExpenseService`) together with a model, built from the repository's
design documents, of the profile-interpretation and normalization
engine (field resolution, parsing, category mapping, exclusion,
deduplication, record building).
-/

/-! ## Decimal numerals and IEEE-754 binary64 rounding

The TypeScript sources declare `amount: number`.  A TypeScript `number`
is an IEEE-754 binary64 value, so storing a decimal numeral string in
it rounds the exact decimal to the nearest representable dyadic
rational.  We model the exact decimal value of a numeral string and the
binary64 rounding (round to nearest, ties to even) on the positive
normal range, which covers every monetary amount in the fixtures. -/

/-- Value of a list of decimal digit characters, `none` when the
list is empty or contains a non-digit. -/
def digitsToNat : List Char → Option Nat
  | [] => none
  | l =>
    l.foldl
      (fun acc c =>
        acc.bind fun n => if c.isDigit then some (10 * n + (c.toNat - 48)) else none)
      (some 0)

/-- Numerator and denominator of a decimal numeral string: `"20"` gives
`(20, 1)` and `"37.68"` gives `(3768, 100)`; the digits of the source
numeral are preserved exactly. -/
def parseDecimalFrac (s : String) : Option (Nat × Nat) :=
  match s.data.splitOn '.' with
  | [w] => (digitsToNat w).map (fun n => (n, 1))
  | [w, f] =>
    match digitsToNat w, digitsToNat f with
    | some a, some b => some (a * 10 ^ f.length + b, 10 ^ f.length)
    | _, _ => none
  | _ => none

/-- Exact rational value of a decimal numeral string such as `"20"` or
`"37.68"`. -/
def parseDecimal (s : String) : Option ℚ :=
  (parseDecimalFrac s).map (fun p => (p.1 : ℚ) / (p.2 : ℚ))

/-- Fuel-driven floor base-2 logarithm (structurally recursive so that
the kernel can evaluate it on literals). -/
def log2Fuel : Nat → Nat → Nat
  | 0, _ => 0
  | fuel + 1, n => if n ≤ 1 then 0 else log2Fuel fuel (n / 2) + 1

/-- Floor of the base-2 logarithm of a natural number (`0` for `0`). -/
def natLog2 (n : Nat) : Nat := log2Fuel n n

/-- Round the fraction `n / d` to the nearest natural number, ties to
even (the IEEE-754 default rounding). -/
def natRoundHalfEven (n d : Nat) : Nat :=
  let q := n / d
  let r := n % d
  if 2 * r < d then q
  else if d < 2 * r then q + 1
  else if q % 2 = 0 then q else q + 1

/-- The IEEE-754 binary64 value nearest to the positive fraction
`n / d`: the significand is rounded to 53 bits, ties to even.  Models
what happens when a decimal amount is stored in a TypeScript `number`
(positive normal range; zero input is mapped to 0). -/
def binary64OfFrac (n d : Nat) : ℚ :=
  if n = 0 ∨ d = 0 then 0
  else
    let e : ℤ :=
      if d ≤ n then (natLog2 (n / d) : ℤ)
      else
        let f := natLog2 (d / n)
        if d = n * 2 ^ f then -(f : ℤ) else -(f : ℤ) - 1
    let s : ℤ := 52 - e
    let m := natRoundHalfEven (n * 2 ^ s.toNat) (d * 2 ^ (-s).toNat)
    (m : ℚ) * (2 : ℚ) ^ (e - 52)

/-- The value that lands in the TypeScript `Expense.amount` field (a
`number`, i.e. an IEEE-754 binary64) when the source numeral string is
stored in it. -/
def tsStoredAmount (s : String) : Option ℚ :=
  (parseDecimalFrac s).map (fun p => binary64OfFrac p.1 p.2)

/-! ## Civil-calendar day arithmetic and the TypeScript `Date`

A TypeScript `Date` is a single millisecond timestamp (ECMA-262
MakeDay/MakeDate), so a date-only source value can only be stored by
attaching a time-of-day.  `daysFromCivil` is the standard
days-since-epoch computation for a proleptic Gregorian civil date. -/

/-- Number of days from 1970-01-01 to the civil date `y-m-d`
(proleptic Gregorian calendar). -/
def daysFromCivil (y : ℤ) (m d : ℕ) : ℤ :=
  let y' : ℤ := if m ≤ 2 then y - 1 else y
  let era : ℤ := Int.ediv y' 400
  let yoe : ℤ := y' - era * 400
  let mp : ℕ := (m + 9) % 12
  let doy : ℤ := (((153 * mp + 2) / 5 : ℕ) : ℤ) + (d : ℤ) - 1
  let doe : ℤ := yoe * 365 + Int.ediv yoe 4 - Int.ediv yoe 100 + doy
  era * 146097 + doe - 719468

/-- The `getTime()` value (epoch milliseconds) a TypeScript `Date`
holds after being constructed from a date-only value `y-m-d`:
ECMA-262 MakeDate(MakeDay(y, m, d), 0). -/
def jsEpochMsOfYMD (y : ℤ) (m d : ℕ) : ℤ :=
  86400000 * daysFromCivil y m d

/-- The time-of-day (milliseconds within the UTC day) carried by an
epoch-millisecond timestamp, ECMA-262 TimeWithinDay. -/
def msWithinDay (t : ℤ) : ℤ :=
  Int.emod t 86400000

/-! ## The TypeScript expense-tracker code

Shallow embedding of `src/models/expense.ts` and the `ExpenseService`
class (`findIndex` over the private `expenses` array plus `splice` /
`push` / index assignment). -/

/-- A TypeScript `Date` value reduced to its `getTime()` result:
`none` models an Invalid Date, whose `getTime()` is `NaN`. -/
structure JSDate where
  timeMs : Option ℤ
deriving DecidableEq

/-- The `Expense` model class of `src/models/expense.ts`: `id: number`,
`amount: number`, `date: Date`, `category: string`.  The `date` field
is wrapped in `Option` so that a null/undefined date (the `!this.date`
check) is representable. -/
structure Expense where
  id : ℤ
  amount : ℚ
  date : Option JSDate
  category : String

/-- `Expense.validate` of `src/models/expense.ts`: throws (modelled as
`Except.error` with the thrown message) when `this.amount <= 0`, when
`!this.date || isNaN(this.date.getTime())`, or when `!this.category`
(empty string); otherwise returns `true`. -/
def Expense.validate (e : Expense) : Except String Bool :=
  if e.amount ≤ 0 then .error "Amount must be greater than zero."
  else
    match e.date with
    | none => .error "Invalid date."
    | some d =>
      match d.timeMs with
      | none => .error "Invalid date."
      | some _ =>
        if e.category = "" then .error "Category is required."
        else .ok true

/-- `ExpenseService.addExpense`: `this.expenses.push(expense)`. -/
def addExpense (expenses : List Expense) (expense : Expense) : List Expense :=
  expenses ++ [expense]

/-- `ExpenseService.updateExpense`: `findIndex` on id, overwrite in
place and return `true` when found, otherwise return `false`. -/
def updateExpense (expenses : List Expense) (id : ℤ) (updatedExpense : Expense) :
    Bool × List Expense :=
  match expenses.findIdx? (fun exp => exp.id == id) with
  | some index => (true, expenses.set index updatedExpense)
  | none => (false, expenses)

/-- `ExpenseService.deleteExpense`: `findIndex` on id; when found,
`splice(index, 1)` and return `true`, otherwise return `false`. -/
def deleteExpense (expenses : List Expense) (id : ℤ) : Bool × List Expense :=
  match expenses.findIdx? (fun exp => exp.id == id) with
  | some index => (true, expenses.eraseIdx index)
  | none => (false, expenses)

/-! ## The profile-interpretation and normalization engine

The deterministic engine of the specification (§2–§4.7 and the
`Standard_Data_Model` / `UserProfile_Protocol` documents) is not
implemented under `src/`; only its design documents are.  The
definitions below are therefore modelled from the spec, and each doc
comment says so. -/

/-- Modelled from the spec: an exact decimal amount, kept as the exact
fraction read from the source numeral (numerator over a power-of-ten
denominator), so source digits are preserved and no binary-float
rounding occurs (`Standard_Data_Model`: `amount: Decimal`). -/
structure DecAmount where
  num : Nat
  den : Nat
deriving DecidableEq

/-- Rational value of a `DecAmount`. -/
def DecAmount.val (a : DecAmount) : ℚ := (a.num : ℚ) / (a.den : ℚ)

/-- Reduce a fraction by its gcd; used to compare `DecAmount`s by value
(`20` and `20.00` denote the same amount). -/
def fracNormalize (p : Nat × Nat) : Nat × Nat :=
  let g := Nat.gcd p.1 p.2
  if g = 0 then p else (p.1 / g, p.2 / g)

/-- Modelled from the spec: `transaction_time` stored at the precision
actually present in the source — a sum type over date-only and
date-with-time, never promoting a date to a synthetic timestamp.
`day` is days since 1970-01-01, `sec` is seconds within the day. -/
inductive TxTime where
  | dateOnly (day : ℤ)
  | withTime (day : ℤ) (sec : ℕ)
deriving DecidableEq

/-- The day component of a transaction time (date-level projection used
for mixed-precision comparison). -/
def TxTime.day : TxTime → ℤ
  | .dateOnly d => d
  | .withTime d _ => d

/-- A transaction time as seconds since epoch (a date-only value sits
at the start of its day for ordering purposes only). -/
def TxTime.seconds : TxTime → ℤ
  | .dateOnly d => d * 86400
  | .withTime d s => d * 86400 + s

/-- Modelled from the spec: the `column_mapping` section of an adapter
profile — semantic field name to source column name, or absent. -/
structure ColumnMapping where
  date_column : Option String
  amount_column : Option String
  merchant_column : Option String
  category_column : Option String
  notes_column : Option String
  item_column : Option String
deriving DecidableEq

/-- Modelled from the spec: the three parsing strategies. -/
inductive ParsingMode where
  | standard
  | mixed_notes
  | full_nlp
deriving DecidableEq

/-- Modelled from the spec: extraction-rule actions (§4.4). -/
inductive RuleAction where
  | extract_as_merchant
  | extract_as_metadata
deriving DecidableEq

/-- Modelled from the spec: an ordered extraction rule — a keyword
pattern set plus an action (regular expressions are modelled as keyword
alternation, matching the fixtures such as `"公司名|店铺名"`). -/
structure ExtractionRule where
  keywords : List String
  action : RuleAction
deriving DecidableEq

/-- Modelled from the spec: the `parsing_strategy` section of a
profile. -/
structure ParsingStrategy where
  mode : ParsingMode
  currency_default : String
  extraction_enabled : Bool
  extraction_rules : List ExtractionRule
deriving DecidableEq

/-- Modelled from the spec: the three category-system semantics. -/
inductive CategoryKind where
  | flat
  | hierarchical
  | dimensional_split
deriving DecidableEq

/-- Modelled from the spec: one entry of a profile's category mapping:
raw category string to (category_main, optional category_sub, tags). -/
structure CategoryEntry where
  raw : String
  category_main : Option String
  category_sub : Option String
  tags : List String
deriving DecidableEq

/-- Modelled from the spec: the `category_system` section of a profile;
`inference_table` is the secondary keyword table used by
`dimensional_split` to infer a main category from item/merchant when
the mapping leaves it ambiguous. -/
structure CategorySystem where
  kind : CategoryKind
  mapping : List CategoryEntry
  separator : Char
  inference_table : List (String × String)
deriving DecidableEq

/-- Modelled from the spec: the deduplication match fields. -/
inductive MatchField where
  | amount
  | transaction_time
  | merchant
deriving DecidableEq, BEq

/-- Modelled from the spec: the `deduplication` part of the cleaning
rules — an enabled flag, the match-field set, and the time tolerance in
seconds. -/
structure DedupSpec where
  enabled : Bool
  match_fields : List MatchField
  time_tolerance_seconds : ℕ
deriving DecidableEq

/-- Modelled from the spec: the `data_cleaning_rules` section of a
profile. -/
structure CleaningRules where
  exclude_transactions : List String
  merchant_mappings : List (String × String)
  deduplication : DedupSpec
deriving DecidableEq

/-- Modelled from the spec: an adapter profile as consumed by the
engine (validated configuration). -/
structure AdapterProfile where
  column_mapping : ColumnMapping
  strategy : ParsingStrategy
  category_system : CategorySystem
  cleaning : CleaningRules
  confidence_threshold : ℚ

/-- A raw input row: an ordered mapping of column name to cell text. -/
def Row : Type := List (String × String)

/-- Modelled from the spec: one candidate transaction returned by the
opaque AI-inference capability for `full_nlp` mode, with its reported
confidence. -/
structure InferredTx where
  time : TxTime
  amount : DecAmount
  merchant : Option String
  item : Option String
  confidence : ℚ

/-- Modelled from the spec: a provisional record as produced by the
per-row stages, before batch-level cleaning/deduplication.  `pid` is
the record's position in the provisional batch (used for dedup
provenance), `srcIndex` the index of the source row. -/
structure ProvRecord where
  pid : ℕ := 0
  srcIndex : ℕ
  time : TxTime
  amount : DecAmount
  currency : String
  merchant : Option String
  item : Option String
  notes : Option String
  category_main : Option String
  category_sub : Option String
  tags : List String
  confidence : ℚ
  errorFlag : Bool
  mergedFrom : List ℕ := []

/-- Modelled from the spec: the three-state review status. -/
inductive RecStatus where
  | validated
  | pending_review
  | flagged
deriving DecidableEq

/-- Modelled from the spec: the canonical output record (identity,
temporal, amount, entity, classification, provenance and review
fields). -/
structure CanonicalRecord where
  rid : ℕ
  import_timestamp : ℤ
  transaction_time : TxTime
  amount : DecAmount
  currency : String
  merchant : Option String
  item_name : Option String
  notes : Option String
  category_main : Option String
  category_sub : Option String
  tags : List String
  confidence_score : ℚ
  status : RecStatus
  source_row : ℕ
  merged_from : List ℕ

/-- A per-row processing diagnostic (row index, stage, message). -/
structure Diagnostic where
  rowIndex : ℕ
  stage : String
  message : String
deriving DecidableEq

/-- Modelled from the spec: the outcome of processing one row —
excluded (with the matched keyword), failed (stage and reason, a
recoverable per-row error), or zero-or-more provisional records. -/
inductive RowOutcome where
  | excluded (keyword : String)
  | failed (stage : String) (reason : String)
  | ok (recs : List ProvRecord)

/-- Does the character list `pat` occur as a contiguous sublist of the
second argument? -/
def containsSub (pat : List Char) : List Char → Bool
  | [] => false
  | c :: rest => pat.isPrefixOf (c :: rest) || containsSub pat rest

/-- Modelled from the spec: keyword matching against a text span — the
keyword (non-empty) occurs as a substring of the text. -/
def matchesKeyword (text k : String) : Bool :=
  !k.data.isEmpty && containsSub k.data text.data

/-- Remove the first occurrence of `pat` from a character list (helper
for extraction residuals). -/
def removeAux (pat : List Char) : List Char → List Char
  | [] => []
  | c :: rest =>
    if pat.isPrefixOf (c :: rest) then (c :: rest).drop pat.length
    else c :: removeAux pat rest

/-- Remove the first occurrence of a non-empty pattern from a character
list; an empty pattern removes nothing. -/
def removeFirstSub (pat l : List Char) : List Char :=
  if pat.isEmpty then l else removeAux pat l

/-- Modelled from the spec: date parsing for `standard`/`mixed_notes`
modes.  The profile's primary format `Y-M-D[ h:m:s]` parses at
confidence 1; the permissive fallback format `Y/M/D[ h:m:s]` parses at
reduced confidence 9/10.  Date-only input yields `TxTime.dateOnly`
(no synthetic time-of-day); input with a time keeps it. -/
def parseYMDChars (sep : Char) (l : List Char) : Option ℤ :=
  match l.splitOn sep with
  | [ys, ms, ds] =>
    match digitsToNat ys, digitsToNat ms, digitsToNat ds with
    | some y, some m, some d =>
      if 1 ≤ m ∧ m ≤ 12 ∧ 1 ≤ d ∧ d ≤ 31 then some (daysFromCivil (y : ℤ) m d) else none
    | _, _, _ => none
  | _ => none

/-- Parse an `h:m:s` time-of-day into seconds within the day. -/
def parseHMSChars (l : List Char) : Option ℕ :=
  match l.splitOn ':' with
  | [hs, ms, ss] =>
    match digitsToNat hs, digitsToNat ms, digitsToNat ss with
    | some h, some mi, some s =>
      if h ≤ 23 ∧ mi ≤ 59 ∧ s ≤ 59 then some (3600 * h + 60 * mi + s) else none
    | _, _, _ => none
  | _ => none

/-- Modelled from the spec: parse a date or datetime string at the
precision present in the source, with a parse confidence (reduced on
format fallback). -/
def parseDate (s : String) : Option (TxTime × ℚ) :=
  match s.data.splitOn ' ' with
  | [d] =>
    match parseYMDChars '-' d with
    | some day => some (.dateOnly day, 1)
    | none => (parseYMDChars '/' d).map (fun day => (.dateOnly day, 9 / 10))
  | [d, t] =>
    match parseYMDChars '-' d, parseHMSChars t with
    | some day, some sec => some (.withTime day sec, 1)
    | _, _ =>
      match parseYMDChars '/' d, parseHMSChars t with
      | some day, some sec => some (.withTime day sec, 9 / 10)
      | _, _ => none
  | _ => none

/-- Modelled from the spec: ordered rule evaluation over a text span
(§4.4).  Rules run in order; the first matching `extract_as_merchant`
rule fills the merchant slot (no re-matching for a filled slot) and its
span is removed from the residual; `extract_as_metadata` removes the
matched span without populating merchant; unmatched text is retained
verbatim. -/
def applyRules : List ExtractionRule → Option String → List Char → Option String × List Char
  | [], merchant, residual => (merchant, residual)
  | rule :: rest, merchant, residual =>
    match rule.keywords.find? (fun k => !k.data.isEmpty && containsSub k.data residual) with
    | none => applyRules rest merchant residual
    | some k =>
      match rule.action with
      | .extract_as_merchant =>
        if merchant.isNone then applyRules rest (some k) (removeFirstSub k.data residual)
        else applyRules rest merchant residual
      | .extract_as_metadata => applyRules rest merchant (removeFirstSub k.data residual)

/-- Look a raw category string up in the profile's category table. -/
def lookupCategory (tbl : List CategoryEntry) (raw : String) : Option CategoryEntry :=
  tbl.find? (fun en => en.raw == raw)

/-- Modelled from the spec: the secondary keyword table of
`dimensional_split`, inferring a main category from item/merchant. -/
def inferMain (tbl : List (String × String)) (item merchant : Option String) : Option String :=
  (tbl.find? (fun q => matchesKeyword (item.getD "") q.1 ||
      matchesKeyword (merchant.getD "") q.1)).map (fun q => q.2)

/-- Split a hierarchical raw category on the profile's path
separator. -/
def splitPath (sep : Char) (raw : String) : Option String × Option String :=
  match raw.data.splitOn sep with
  | [a] => (some (String.mk a), none)
  | [a, b] => (some (String.mk a), some (String.mk b))
  | _ => (none, none)

/-- Result of category mapping: at most one (category_main,
category_sub) pair, tags, and the stage confidence. -/
structure CategoryResult where
  category_main : Option String
  category_sub : Option String
  tags : List String
  confidence : ℚ

/-- Modelled from the spec: the category mapper (§4.5).  `flat` is a
direct table lookup (unknown raw categories leave main null at lowered
confidence); `hierarchical` looks the full path up first, otherwise
splits on the separator; `dimensional_split` takes (main, tags) from
the table, falling back to the secondary keyword table for an
ambiguous/null main — tags always come from the explicit mapping,
never from inference. -/
def mapCategory (sys : CategorySystem) (raw? : Option String) (item merchant : Option String) :
    CategoryResult :=
  match raw? with
  | none => ⟨none, none, [], 1⟩
  | some raw =>
    match sys.kind with
    | .flat =>
      match lookupCategory sys.mapping raw with
      | some en => ⟨en.category_main, en.category_sub, en.tags, 1⟩
      | none => ⟨none, none, [], 1 / 2⟩
    | .hierarchical =>
      match lookupCategory sys.mapping raw with
      | some en => ⟨en.category_main, en.category_sub, en.tags, 1⟩
      | none =>
        let q := splitPath sys.separator raw
        ⟨q.1, q.2, [], 1⟩
    | .dimensional_split =>
      match lookupCategory sys.mapping raw with
      | some en =>
        match en.category_main with
        | some m => ⟨some m, en.category_sub, en.tags, 1⟩
        | none =>
          match inferMain sys.inference_table item merchant with
          | some m => ⟨some m, en.category_sub, en.tags, 8 / 10⟩
          | none => ⟨none, en.category_sub, en.tags, 1 / 2⟩
      | none => ⟨none, none, [], 1 / 2⟩

/-- Modelled from the spec: confidence of an assembled record — the
minimum of the contributing stage confidences (date parse, amount
parse, entity extraction, category mapping). -/
def recordConfidence (dateConf amountConf extractConf categoryConf : ℚ) : ℚ :=
  min dateConf (min amountConf (min extractConf categoryConf))

/-- Modelled from the spec: the review status assigned by the Record
Builder — `validated` iff the confidence reaches the profile threshold
and no error flag was raised, otherwise `pending_review`; the engine
never assigns `flagged` (reserved for later user action). -/
def buildStatus (threshold conf : ℚ) (err : Bool) : RecStatus :=
  if err then .pending_review
  else if threshold ≤ conf then .validated
  else .pending_review

/-- Resolve an optional semantic column against a row. -/
def resolveCol (row : Row) (c? : Option String) : Option String :=
  c?.bind (fun c => ((row : List (String × String)).find? (fun q => q.1 == c)).map (fun q => q.2))

/-- Modelled from the spec: resolve a required column (date, amount) —
a missing declaration or a missing column is a per-row
field-resolution failure, not a crash. -/
def requireCol (row : Row) (c? : Option String) (name : String) : Except (String × String) String :=
  match c? with
  | none => .error ("FieldResolutionError", "missing " ++ name ++ " column mapping")
  | some c =>
    match (row : List (String × String)).find? (fun q => q.1 == c) with
    | none => .error ("FieldResolutionError", "missing " ++ name ++ " column")
    | some q => .ok q.2

/-- Modelled from the spec: build one provisional record from an
AI-inferred candidate in `full_nlp` mode; its confidence is the
capability's reported value combined (min) with the category stage. -/
def mkNlpRecord (p : AdapterProfile) (i : ℕ) (c : InferredTx) : ProvRecord :=
  let catRes := mapCategory p.category_system none c.item c.merchant
  { srcIndex := i, time := c.time, amount := c.amount,
    currency := p.strategy.currency_default, merchant := c.merchant, item := c.item,
    notes := none, category_main := catRes.category_main,
    category_sub := catRes.category_sub, tags := catRes.tags,
    confidence := min c.confidence catRes.confidence, errorFlag := false }

/-- Modelled from the spec: the structured part of row processing
shared by `standard` and `mixed_notes` — required date/amount columns,
exact decimal amount parse, precision-preserving date parse, optional
entity extraction from notes (mixed_notes only), category mapping, and
confidence as the minimum of the stage confidences. -/
def processStructured (p : AdapterProfile) (i : ℕ) (row : Row)
    (category? notesRaw? : Option String) (useExtraction : Bool) : RowOutcome :=
  match requireCol row p.column_mapping.date_column "date" with
  | .error e => .failed e.1 e.2
  | .ok dateStr =>
    match requireCol row p.column_mapping.amount_column "amount" with
    | .error e => .failed e.1 e.2
    | .ok amountStr =>
      match parseDate dateStr with
      | none => .failed "ParseError" "malformed date"
      | some td =>
        match parseDecimalFrac amountStr with
        | none => .failed "ParseError" "malformed amount"
        | some am =>
          let merchantCol := resolveCol row p.column_mapping.merchant_column
          let item := resolveCol row p.column_mapping.item_column
          let ext : Option String × Option String × ℚ :=
            if useExtraction && p.strategy.extraction_enabled && merchantCol.isNone then
              let er := applyRules p.strategy.extraction_rules none (notesRaw?.getD "").data
              (er.1, some (String.mk er.2), if er.1.isSome then 9 / 10 else 1 / 2)
            else (merchantCol, notesRaw?, 1)
          let catRes := mapCategory p.category_system category? item ext.1
          .ok [{ srcIndex := i, time := td.1, amount := ⟨am.1, am.2⟩,
                 currency := p.strategy.currency_default, merchant := ext.1, item := item,
                 notes := ext.2.1, category_main := catRes.category_main,
                 category_sub := catRes.category_sub, tags := catRes.tags,
                 confidence := recordConfidence td.2 1 ext.2.2 catRes.confidence,
                 errorFlag := false }]

/-- Modelled from the spec: the first exclusion keyword matching a
row's raw category or notes, if any (checked before categorization). -/
def exclusionMatch (p : AdapterProfile) (category? notesRaw? : Option String) : Option String :=
  p.cleaning.exclude_transactions.find?
    (fun k => matchesKeyword (category?.getD "") k || matchesKeyword (notesRaw?.getD "") k)

/-- Modelled from the spec: the mode dispatch — a pure function of
`parsing_strategy.mode`; no mode falls through to another mode's
logic.  `full_nlp` hands the text to the opaque AI capability `ai`
(`none` models timeout/failure, a recoverable per-row error). -/
def dispatchMode (ai : String → Option (List InferredTx)) (p : AdapterProfile) (i : ℕ)
    (row : Row) (category? notesRaw? : Option String) : RowOutcome :=
  match p.strategy.mode with
  | .standard => processStructured p i row category? notesRaw? false
  | .mixed_notes => processStructured p i row category? notesRaw? true
  | .full_nlp =>
    match ai (notesRaw?.getD (String.join ((row : List (String × String)).map (fun q => q.2)))) with
    | none => .failed "ExtractionFailure" "inference_unavailable"
    | some cands => .ok (cands.map (fun c => mkNlpRecord p i c))

/-- Modelled from the spec: process one row — exclusion keywords are
checked against the raw category and notes before categorization, then
the mode dispatch runs the matching strategy. -/
def processRow (ai : String → Option (List InferredTx)) (p : AdapterProfile) (i : ℕ)
    (row : Row) : RowOutcome :=
  let category? := resolveCol row p.column_mapping.category_column
  let notesRaw? := resolveCol row p.column_mapping.notes_column
  match exclusionMatch p category? notesRaw? with
  | some k => .excluded k
  | none => dispatchMode ai p i row category? notesRaw?

/-- Run the per-row stage over a batch, pairing each outcome with its
row index (embarrassingly parallel per the spec — each entry depends
only on its own row). -/
def runRows (ai : String → Option (List InferredTx)) (p : AdapterProfile) :
    ℕ → List Row → List (ℕ × RowOutcome)
  | _, [] => []
  | i, row :: rest => (i, processRow ai p i row) :: runRows ai p (i + 1) rest

/-- The provisional records contributed by a row outcome. -/
def outcomeRecs : RowOutcome → List ProvRecord
  | .ok recs => recs
  | _ => []

/-- The diagnostic entry contributed by a row outcome, if any: one per
excluded row (logging the matched keyword) and one per failed row
(recording the stage and reason). -/
def outcomeDiag (i : ℕ) : RowOutcome → Option Diagnostic
  | .excluded k => some ⟨i, "exclusion", k⟩
  | .failed st r => some ⟨i, st, r⟩
  | .ok _ => none

/-- All provisional records of a batch. -/
def provisionalOf (outs : List (ℕ × RowOutcome)) : List ProvRecord :=
  outs.flatMap (fun q => outcomeRecs q.2)

/-- All diagnostics of a batch. -/
def diagnosticsOf (outs : List (ℕ × RowOutcome)) : List Diagnostic :=
  outs.filterMap (fun q => outcomeDiag q.1 q.2)

/-- Case-insensitive string comparison (ASCII case folding), used by
merchant normalization. -/
def lowerEqString (a b : String) : Bool :=
  a.data.map Char.toLower == b.data.map Char.toLower

/-- Modelled from the spec: merchant-name normalization — an explicit,
profile-recorded raw-to-canonical lookup (case-insensitive); unmapped
names pass through unchanged. -/
def normalizeMerchant (maps : List (String × String)) (m? : Option String) : Option String :=
  m?.map (fun m =>
    match maps.find? (fun q => lowerEqString q.1 m) with
    | some q => q.2
    | none => m)

/-- Apply the cleaning rules that act on a single record. -/
def cleanRecord (cl : CleaningRules) (r : ProvRecord) : ProvRecord :=
  { r with merchant := normalizeMerchant cl.merchant_mappings r.merchant }

/-- Number the provisional records of a batch consecutively (the `pid`
used for dedup provenance). -/
def assignPids : ℕ → List ProvRecord → List ProvRecord
  | _, [] => []
  | i, r :: rest => { r with pid := i } :: assignPids (i + 1) rest

/-- Insert into a group association list: append to the group with this
key, or open a new group at the end (first-occurrence order). -/
def addToGroups {α κ : Type} [DecidableEq κ] (k : κ) (r : α) :
    List (κ × List α) → List (κ × List α)
  | [] => [(k, [r])]
  | (k', g) :: rest =>
    if k = k' then (k', g ++ [r]) :: rest else (k', g) :: addToGroups k r rest

/-- Group a list by a key function, preserving order of first
occurrence and order within each group. -/
def groupByKey {α κ : Type} [DecidableEq κ] (key : α → κ) (l : List α) :
    List (κ × List α) :=
  l.foldl (fun gs r => addToGroups (key r) r gs) []

/-- Modelled from the spec: the exact-match grouping key of
deduplication — the values of the configured non-temporal match fields
(amount compared by value, merchant as normalized string); transaction
time is handled by the tolerance sweep, not by exact grouping. -/
def dedupKey (spec : DedupSpec) (r : ProvRecord) : Option (ℕ × ℕ) × Option (Option String) :=
  (if spec.match_fields.contains .amount then some (fracNormalize (r.amount.num, r.amount.den))
   else none,
   if spec.match_fields.contains .merchant then some r.merchant else none)

/-- Time-then-row-order comparison used to sort a dedup group before
the sweep. -/
def timeLe (a b : ProvRecord) : Bool :=
  decide (a.time.seconds < b.time.seconds) ||
    (decide (a.time.seconds = b.time.seconds) && decide (a.srcIndex ≤ b.srcIndex))

/-- Comparison by provisional position, used to restore batch order
after deduplication. -/
def pidLe (a b : ProvRecord) : Bool := decide (a.pid ≤ b.pid)

/-- Insert into a list sorted by `le`. -/
def insertBy {α : Type} (le : α → α → Bool) (x : α) : List α → List α
  | [] => [x]
  | y :: ys => if le x y then x :: y :: ys else y :: insertBy le x ys

/-- Insertion sort by `le`. -/
def sortBy {α : Type} (le : α → α → Bool) (l : List α) : List α :=
  l.foldr (insertBy le) []

/-- Modelled from the spec: the single-pass sweep over a time-sorted
group — consecutive candidates within the sliding tolerance window
join the current cluster (so merging is transitive along the sorted
sequence), a larger gap closes the cluster. -/
def sweepGo (tol : ℤ) : List ProvRecord → List ProvRecord → ℤ → List (List ProvRecord) →
    List (List ProvRecord)
  | [], current, _, acc => acc ++ [current.reverse]
  | r :: rs, current, lastSec, acc =>
    if r.time.seconds - lastSec ≤ tol then sweepGo tol rs (r :: current) r.time.seconds acc
    else sweepGo tol rs [r] r.time.seconds (acc ++ [current.reverse])

/-- Split a time-sorted list into tolerance clusters. -/
def sweep (tol : ℤ) : List ProvRecord → List (List ProvRecord)
  | [] => []
  | r :: rs => sweepGo tol rs [r] r.time.seconds []

/-- Modelled from the spec: the survivor priority — higher
confidence_score first, ties broken by earlier transaction time, then
by original row order. -/
def betterRecord (a b : ProvRecord) : Bool :=
  decide (b.confidence < a.confidence) ||
    (decide (a.confidence = b.confidence) &&
      (decide (a.time.seconds < b.time.seconds) ||
        (decide (a.time.seconds = b.time.seconds) && decide (a.srcIndex < b.srcIndex))))

/-- Fold a cluster down to its surviving record. -/
def pickSurvivor : ProvRecord → List ProvRecord → ProvRecord
  | best, [] => best
  | best, r :: rs => if betterRecord r best then pickSurvivor r rs else pickSurvivor best rs

/-- Modelled from the spec: collapse one duplicate cluster — exactly
one survivor, which retains the merged-away duplicates as provenance
references. -/
def clusterMerge : List ProvRecord → Option ProvRecord
  | [] => none
  | r :: rest =>
    let s := pickSurvivor r rest
    some { s with mergedFrom := ((r :: rest).map (fun x => x.pid)).filter (fun q => q ≠ s.pid) }

/-- Modelled from the spec: whole-batch deduplication — group by the
exact-match fields, time-sort each group, sweep it into tolerance
clusters, keep one survivor per cluster, and restore batch order. -/
def dedup (spec : DedupSpec) (recs : List ProvRecord) : List ProvRecord :=
  if spec.enabled then
    sortBy pidLe
      ((groupByKey (dedupKey spec) recs).flatMap
        (fun g => (sweep (spec.time_tolerance_seconds : ℤ) (sortBy timeLe g.2)).filterMap
          clusterMerge))
  else recs

/-- Modelled from the spec: assemble the final canonical record from a
surviving provisional record — fresh id, import time, status from the
threshold comparison, and full provenance. -/
def toCanonical (p : AdapterProfile) (rid : ℕ) (t : ℤ) (r : ProvRecord) : CanonicalRecord :=
  { rid := rid, import_timestamp := t, transaction_time := r.time, amount := r.amount,
    currency := r.currency, merchant := r.merchant, item_name := r.item, notes := r.notes,
    category_main := r.category_main, category_sub := r.category_sub, tags := r.tags,
    confidence_score := r.confidence,
    status := buildStatus p.confidence_threshold r.confidence r.errorFlag,
    source_row := r.srcIndex, merged_from := r.mergedFrom }

/-- Build the canonical records of a batch, assigning consecutive fresh
ids starting at `c` and the import time `t`. -/
def finalize (p : AdapterProfile) : ℕ → ℤ → List ProvRecord → List CanonicalRecord
  | _, _, [] => []
  | c, t, r :: rest => toCanonical p c t r :: finalize p (c + 1) t rest

/-- Modelled from the spec: profile validation (§4.1) — the numeric
threshold must lie in [0,1], and the structured modes must declare
their required date and amount columns.  Fails closed: an invalid
profile is never partially applied. -/
def validateProfile (p : AdapterProfile) : Bool :=
  decide (0 ≤ p.confidence_threshold) && decide (p.confidence_threshold ≤ 1) &&
    (match p.strategy.mode with
     | .full_nlp => true
     | _ => p.column_mapping.date_column.isSome && p.column_mapping.amount_column.isSome)

/-- Modelled from the spec: the whole engine — validate the profile
(batch-fatal on failure), process each row independently, apply
single-record cleaning, deduplicate the batch, and build the canonical
records plus the per-row diagnostics.  `c` is the first fresh record
id and `t` the import time; `ai` is the opaque inference capability. -/
def applyProfile (ai : String → Option (List InferredTx)) (p : AdapterProfile)
    (rows : List Row) (c : ℕ) (t : ℤ) :
    Except String (List CanonicalRecord × List Diagnostic) :=
  if validateProfile p then
    let outs := runRows ai p 0 rows
    let prov := assignPids 0 ((provisionalOf outs).map (cleanRecord p.cleaning))
    .ok (finalize p c t (dedup p.cleaning.deduplication prov), diagnosticsOf outs)
  else .error "ProfileValidationError"

/-- Erase the freshly generated identity fields (record id and import
time) of a canonical record, for stating determinism up to fresh
ids. -/
def stripFresh (r : CanonicalRecord) : CanonicalRecord :=
  { r with rid := 0, import_timestamp := 0 }

/-- Erase fresh identity fields across a whole engine result. -/
def stripRun :
    Except String (List CanonicalRecord × List Diagnostic) →
      Except String (List CanonicalRecord × List Diagnostic)
  | .error e => .error e
  | .ok (recs, ds) => .ok (recs.map stripFresh, ds)

/-! ## Concrete fixtures

Concrete profiles and records used to evaluate the model on the
spec's own examples. -/

/-- An expense with a given id (fixture). -/
def wExp (n : ℤ) : Expense := ⟨n, 5, some ⟨some 0⟩, "food"⟩

/-- The column mapping of the spec's standard-mode CSV fixture. -/
def stdColumns : ColumnMapping :=
  ⟨some "购买日期", some "金额（元）", some "商户", some "类别", some "备注", none⟩

/-- The dimensional-split category system of the spec's fixture: raw
category `"女儿费用"` carries only the tag `"女儿"`; the main category
is inferred from the item via the secondary keyword table. -/
def dimFixtureSystem : CategorySystem :=
  ⟨.dimensional_split,
   [⟨"女儿费用", none, none, ["女儿"]⟩, ⟨"吃", some "餐饮", none, []⟩],
   '.', [("奶茶", "餐饮"), ("咖啡", "餐饮")]⟩

/-- Cleaning rules with everything switched off (fixture). -/
def noCleaning : CleaningRules := ⟨[], [], ⟨false, [], 0⟩⟩

/-- Cleaning rules with one exclusion keyword (fixture). -/
def exclCleaning : CleaningRules := ⟨["transfer"], [], ⟨false, [], 0⟩⟩

/-- A standard-mode profile over the fixture columns. -/
def fixtureProfile : AdapterProfile :=
  ⟨stdColumns, ⟨.standard, "CNY", false, []⟩, dimFixtureSystem, noCleaning, 8 / 10⟩

/-- A standard-mode profile with the `"transfer"` exclusion keyword. -/
def exclProfile : AdapterProfile :=
  ⟨stdColumns, ⟨.standard, "CNY", false, []⟩, dimFixtureSystem, exclCleaning, 8 / 10⟩

/-- A provisional record used by the dedup fixtures: identical amount
and merchant throughout, varying time-of-day, position and
confidence. -/
def mkDedupProv (pid srcIndex sec : ℕ) (conf : ℚ) : ProvRecord :=
  { pid := pid, srcIndex := srcIndex, time := .withTime 20162 sec,
    amount := ⟨2000, 100⟩, currency := "CNY", merchant := some "瑞幸咖啡", item := none,
    notes := none, category_main := some "餐饮", category_sub := none, tags := [],
    confidence := conf, errorFlag := false }

/-- The dedup spec of the spec's dedup fixture: match on amount,
transaction time and merchant, with a given tolerance. -/
def ddSpec (tol : ℕ) : DedupSpec := ⟨true, [.amount, .transaction_time, .merchant], tol⟩

/-- A row of the spec's standard-mode CSV fixture. -/
def stdRow : Row :=
  [("购买日期", "2025-03-15"), ("金额（元）", "37.68"), ("商户", "瑞幸咖啡"),
   ("类别", "吃"), ("备注", "WildCard")]

/-- The fixture row with an excluded category. -/
def exclRow : Row :=
  [("购买日期", "2025-03-15"), ("金额（元）", "37.68"), ("商户", "瑞幸咖啡"),
   ("类别", "transfer"), ("备注", "")]

/-- The fixture row with a malformed amount. -/
def badAmountRow : Row :=
  [("购买日期", "2025-03-15"), ("金额（元）", "abc"), ("商户", "瑞幸咖啡"),
   ("类别", "吃"), ("备注", "")]

/-- An AI capability that never answers (timeout/failure model). -/
def aiNone : String → Option (List InferredTx) := fun _ => none

/-! ## Theorems -/

/-- Helper: evaluation of the binary64 rounding at `3768 / 100`. -/
theorem binary64OfFrac_37_68 :
    binary64OfFrac 3768 100 = (5302988561228759 : ℚ) / 140737488355328 := by
  have h1 : natLog2 (3768 / 100) = 5 := by decide
  have h2 : natRoundHalfEven (3768 * 2 ^ Int.toNat 47) (100 * 2 ^ (-47 : ℤ).toNat)
      = 5302988561228759 := by decide
  rw [binary64OfFrac]
  norm_num [h1, h2]

/-- Helper: the binary64 rounding is exact at `20 / 1`. -/
theorem binary64OfFrac_20 : binary64OfFrac 20 1 = 20 := by
  have h1 : natLog2 (20 / 1) = 4 := by decide
  have h2 : natRoundHalfEven (20 * 2 ^ Int.toNat 48) (2 ^ (-48 : ℤ).toNat)
      = 20 * 2 ^ 48 := by decide
  rw [binary64OfFrac]
  norm_num [h1, h2]

/-- Claim C1: the claim promises that the amount of every produced
record is an exact decimal never subject to binary-float rounding.
The `Expense` record type of the code stores `amount` in a TypeScript
`number` (IEEE-754 binary64), and `37.68` is not representable there:
the stored value is the dyadic `5302988561228759/2^47`, a binary-float
artifact different from the exact decimal `942/25`, while `20` happens
to be stored exactly.  This theorem evaluates the code's storage model
at the failing input. -/
theorem C1_amount_binary_float_artifact :
    parseDecimal "37.68" = some ((942 : ℚ) / 25) ∧
    tsStoredAmount "37.68" = some ((5302988561228759 : ℚ) / 140737488355328) ∧
    tsStoredAmount "37.68" ≠ parseDecimal "37.68" ∧
    tsStoredAmount "20" = some 20 ∧
    parseDecimal "20" = some 20 := by
  have h0 : parseDecimalFrac "37.68" = some (3768, 100) := by decide
  have h0' : parseDecimalFrac "20" = some (20, 1) := by decide
  refine ⟨?_, ?_, ?_, ?_, ?_⟩
  · rw [parseDecimal, h0, Option.map_some']
    norm_num
  · rw [tsStoredAmount, h0, Option.map_some']
    exact congrArg some binary64OfFrac_37_68
  · rw [tsStoredAmount, parseDecimal, h0, Option.map_some', Option.map_some',
      binary64OfFrac_37_68]
    intro h
    have h' := Option.some.inj h
    norm_num at h'
  · rw [tsStoredAmount, h0', Option.map_some']
    exact congrArg some binary64OfFrac_20
  · rw [parseDecimal, h0', Option.map_some']
    norm_num

/-- Claim C2: the claim promises that a date-only input is never
promoted to a timestamp with a synthetic time-of-day.  The code's
`Expense.date` field is a TypeScript `Date` — a bare millisecond
timestamp — so storing any date-only value forces a time-of-day onto
it: the stored timestamp always reads midnight (a synthetic
time-of-day), evaluated here at the failing input `2025-03-15`. -/
theorem C2_date_only_forced_to_midnight_timestamp :
    (∀ (y : ℤ) (m d : ℕ), msWithinDay (jsEpochMsOfYMD y m d) = 0) ∧
    jsEpochMsOfYMD 2025 3 15 = 1741996800000 ∧
    msWithinDay 1741996800000 = 0 := by
  refine ⟨?_, by decide, by decide⟩
  intro y m d
  unfold msWithinDay jsEpochMsOfYMD
  exact Int.mul_emod_right 86400000 _

/-- Helper: `findIdx?` returns the index of the head of the first
match. -/
theorem findIdx?_first_match {α : Type} (p : α → Bool) :
    ∀ (pre : List α) (e : α) (post : List α), p e = true → (∀ x ∈ pre, p x = false) →
      (pre ++ e :: post).findIdx? p = some pre.length := by
  intro pre
  induction pre with
  | nil => intro e post hp _; simp [hp]
  | cons a as ih =>
    intro e post hp hpre
    have ha : p a = false := hpre a (List.mem_cons_self a as)
    have htail := ih e post hp (fun x hx => hpre x (List.mem_cons_of_mem a hx))
    simp [List.findIdx?_cons, ha, List.findIdx?_succ, htail]

/-- Helper: erasing at the index right after a prefix removes the
element there and only it. -/
theorem eraseIdx_after_prefix {α : Type} :
    ∀ (pre : List α) (e : α) (post : List α),
      (pre ++ e :: post).eraseIdx pre.length = pre ++ post := by
  intro pre
  induction pre with
  | nil => intro e post; rfl
  | cons a as ih => intro e post; simp [List.eraseIdx, ih]

/-- Claim C9: `ExpenseService.deleteExpense` — when some expense has
the requested id, exactly the first such expense is removed, every
other expense is kept in order, and `true` is returned; when none has
it, the list is unchanged and `false` is returned. -/
theorem C9_deleteExpense_removes_first_match :
    ∀ (l : List Expense) (i : ℤ),
      ((∀ e ∈ l, e.id ≠ i) → deleteExpense l i = (false, l)) ∧
      (∀ (pre post : List Expense) (e : Expense),
        l = pre ++ e :: post → e.id = i → (∀ e' ∈ pre, e'.id ≠ i) →
        deleteExpense l i = (true, pre ++ post)) := by
  intro l i
  constructor
  · intro h
    have hnone : l.findIdx? (fun exp => exp.id == i) = none := by
      rw [List.findIdx?_eq_none_iff]
      intro x hx
      simpa using h x hx
    simp [deleteExpense, hnone]
  · intro pre post e hl he hpre
    subst hl
    have hsome := findIdx?_first_match (fun exp => exp.id == i) pre e post
      (by simpa using he) (fun x hx => by simpa using hpre x hx)
    simp [deleteExpense, hsome, eraseIdx_after_prefix]

/-- Witness for C9 at concrete inputs: a missing id leaves the list
unchanged with `false`; a present id removes exactly its first
occurrence with `true`. -/
theorem C9_deleteExpense_removes_first_match_witness :
    deleteExpense [wExp 2, wExp 1, wExp 3] 9 = (false, [wExp 2, wExp 1, wExp 3]) ∧
    deleteExpense [wExp 2, wExp 1, wExp 3] 1 = (true, [wExp 2, wExp 3]) := by
  constructor
  · exact (C9_deleteExpense_removes_first_match [wExp 2, wExp 1, wExp 3] 9).1
      (by intro e he; fin_cases he <;> simp [wExp])
  · exact (C9_deleteExpense_removes_first_match [wExp 2, wExp 1, wExp 3] 1).2
      [wExp 2] [wExp 3] (wExp 1) rfl rfl
      (by intro e he; fin_cases he; simp [wExp])

/-- Claim C10: `Expense.validate` throws exactly when the amount is
non-positive, the date is absent or invalid (`NaN` time value), or the
category is empty; otherwise it returns `true`; it never returns
`false` (and, being a pure function of the expense in this embedding,
it modifies nothing). -/
theorem C10_validate_characterization :
    ∀ e : Expense,
      ((∃ msg, e.validate = .error msg) ↔
        (e.amount ≤ 0 ∨ e.date = none ∨ e.date = some ⟨none⟩ ∨ e.category = "")) ∧
      (e.validate = .ok true ↔
        ¬(e.amount ≤ 0 ∨ e.date = none ∨ e.date = some ⟨none⟩ ∨ e.category = "")) ∧
      e.validate ≠ .ok false := by
  intro e
  obtain ⟨eid, amount, date, category⟩ := e
  unfold Expense.validate
  dsimp only
  by_cases ha : amount ≤ 0
  · simp [ha]
  · cases date with
    | none => simp [ha]
    | some d =>
      obtain ⟨t?⟩ := d
      cases t? with
      | none => simp [ha]
      | some t =>
        by_cases hc : category = ""
        · simp [ha, hc]
        · simp [ha, hc]

/-- Helper: stripping fresh identity fields erases the dependence of a
finalized record on the id counter and import time. -/
theorem stripFresh_toCanonical (p : AdapterProfile) (c : ℕ) (t : ℤ) (r : ProvRecord) :
    stripFresh (toCanonical p c t r) = stripFresh (toCanonical p 0 0 r) := rfl

/-- Helper: finalized batches agree after stripping fresh identity
fields, whatever id counter and import time were used. -/
theorem finalize_map_stripFresh (p : AdapterProfile) :
    ∀ (L : List ProvRecord) (c : ℕ) (t : ℤ),
      (finalize p c t L).map stripFresh = L.map (fun r => stripFresh (toCanonical p 0 0 r)) := by
  intro L
  induction L with
  | nil => intro c t; rfl
  | cons r rest ih =>
    intro c t
    simp only [finalize, List.map_cons, ih, List.cons.injEq, and_true]
    exact stripFresh_toCanonical p c t r

/-- Claim C3: the engine is a deterministic function of the AI
capability, the profile and the rows: two runs over the same inputs
produce identical canonical-record lists — including the dedup
groupings carried in `merged_from` — and identical diagnostics, up to
the freshly generated record ids and import times. -/
theorem C3_engine_deterministic_up_to_fresh_ids :
    ∀ (ai : String → Option (List InferredTx)) (p : AdapterProfile) (rows : List Row)
      (c₁ c₂ : ℕ) (t₁ t₂ : ℤ),
      stripRun (applyProfile ai p rows c₁ t₁) = stripRun (applyProfile ai p rows c₂ t₂) := by
  intro ai p rows c₁ c₂ t₁ t₂
  unfold applyProfile
  by_cases h : validateProfile p = true
  · simp only [h, if_true, stripRun]
    rw [finalize_map_stripFresh, finalize_map_stripFresh]
  · simp [h]

/-- Helper: the record builder never assigns the `flagged` status. -/
theorem buildStatus_ne_flagged (th conf : ℚ) (err : Bool) :
    buildStatus th conf err ≠ .flagged := by
  unfold buildStatus
  split
  · simp
  · split <;> simp

/-- Claim C6: the record builder computes the confidence score as the
minimum of the contributing stage confidences (date parse, amount
parse, entity extraction, category mapping), assigns `validated`
exactly when no error flag was raised and the score reaches the
profile threshold, `pending_review` exactly when an error occurred or
the score is below threshold, and never assigns `flagged` — in
particular no record built by `finalize` is ever flagged. -/
theorem C6_record_builder_confidence_and_status :
    (∀ d a e c : ℚ,
        recordConfidence d a e c ≤ d ∧ recordConfidence d a e c ≤ a ∧
        recordConfidence d a e c ≤ e ∧ recordConfidence d a e c ≤ c ∧
        (recordConfidence d a e c = d ∨ recordConfidence d a e c = a ∨
          recordConfidence d a e c = e ∨ recordConfidence d a e c = c)) ∧
    (∀ (th conf : ℚ) (err : Bool),
        (buildStatus th conf err = .validated ↔ (err = false ∧ th ≤ conf)) ∧
        (buildStatus th conf err = .pending_review ↔ (err = true ∨ conf < th)) ∧
        buildStatus th conf err ≠ .flagged) ∧
    (∀ (p : AdapterProfile) (c : ℕ) (t : ℤ) (L : List ProvRecord) (r : CanonicalRecord),
        r ∈ finalize p c t L → r.status ≠ .flagged) := by
  refine ⟨?_, ?_, ?_⟩
  · intro d a e c
    refine ⟨min_le_left _ _, ?_, ?_, ?_, ?_⟩
    · exact le_trans (min_le_right _ _) (min_le_left _ _)
    · exact le_trans (min_le_right _ _) (le_trans (min_le_right _ _) (min_le_left _ _))
    · exact le_trans (min_le_right _ _) (le_trans (min_le_right _ _) (min_le_right _ _))
    · rcases min_choice d (min a (min e c)) with h1 | h1
      · exact Or.inl h1
      · rcases min_choice a (min e c) with h2 | h2
        · exact Or.inr (Or.inl (h1.trans h2))
        · rcases min_choice e c with h3 | h3
          · exact Or.inr (Or.inr (Or.inl ((h1.trans h2).trans h3)))
          · exact Or.inr (Or.inr (Or.inr ((h1.trans h2).trans h3)))
  · intro th conf err
    refine ⟨?_, ?_, buildStatus_ne_flagged th conf err⟩ <;> unfold buildStatus
    · cases err with
      | true => simp
      | false =>
        by_cases hle : th ≤ conf
        · simp [hle]
        · simp [hle]
    · cases err with
      | true => simp
      | false =>
        by_cases hle : th ≤ conf
        · simp [hle, not_lt.mpr hle]
        · simp [hle, lt_of_not_le hle]
  · intro p c t L
    induction L generalizing c with
    | nil => intro r h; simp [finalize] at h
    | cons a rest ih =>
      intro r h
      rw [finalize] at h
      rcases List.mem_cons.mp h with h1 | h2
      · subst h1
        exact buildStatus_ne_flagged _ _ _
      · exact ih (c + 1) r h2

/-- Witness for C6 at concrete inputs: the builder status on the
fixture profile and record, obtained through the finalized batch. -/
theorem C6_record_builder_confidence_and_status_witness :
    (toCanonical fixtureProfile 7 99 (mkDedupProv 0 0 0 1)).status ≠ .flagged := by
  exact C6_record_builder_confidence_and_status.2.2 fixtureProfile 7 99 [mkDedupProv 0 0 0 1]
    (toCanonical fixtureProfile 7 99 (mkDedupProv 0 0 0 1)) (by simp [finalize])

/-- Claim C5: category mapping yields a single optional
(category_main, category_sub) pair; under `dimensional_split` the tags
always come from the explicit mapping entry (dimensional aspects never
multiply category membership), and the spec's fixture `"女儿费用"` with
item `"奶茶"` maps to main `"餐饮"` with tags `["女儿"]`; a record's
`category_main` can only hold one value. -/
theorem C5_single_category_pair_and_tags_from_mapping :
    (∀ (sys : CategorySystem) (raw : String) (item merchant : Option String)
        (en : CategoryEntry),
        sys.kind = .dimensional_split → lookupCategory sys.mapping raw = some en →
        (mapCategory sys (some raw) item merchant).tags = en.tags) ∧
    mapCategory dimFixtureSystem (some "女儿费用") (some "奶茶") none
      = ⟨some "餐饮", none, ["女儿"], 8 / 10⟩ ∧
    (∀ (r : CanonicalRecord) (c₁ c₂ : String),
        r.category_main = some c₁ → r.category_main = some c₂ → c₁ = c₂) := by
  refine ⟨?_, ?_, ?_⟩
  · intro sys raw item merchant en hkind hlook
    obtain ⟨kind, mapping, sep, inf⟩ := sys
    dsimp only at hkind
    subst hkind
    unfold mapCategory
    dsimp only at hlook ⊢
    rw [hlook]
    cases hm : en.category_main with
    | some m => simp [hm]
    | none =>
      cases hinf : inferMain inf item merchant with
      | some m => simp [hm, hinf]
      | none => simp [hm, hinf]
  · rfl
  · intro r c₁ c₂ h1 h2
    rw [h1] at h2
    exact Option.some.inj h2

/-- Witness for C5 at concrete inputs: under the fixture
dimensional-split system, the tags of the mapped fixture category are
exactly the mapping entry's tags. -/
theorem C5_single_category_pair_and_tags_from_mapping_witness :
    (mapCategory dimFixtureSystem (some "女儿费用") (some "奶茶") none).tags = ["女儿"] := by
  exact C5_single_category_pair_and_tags_from_mapping.1 dimFixtureSystem "女儿费用"
    (some "奶茶") none ⟨"女儿费用", none, none, ["女儿"]⟩ rfl rfl

/-- Helper: records produced by the structured strategies carry their
source row index. -/
theorem processStructured_srcIndex (p : AdapterProfile) (i : ℕ) (row : Row)
    (category? notesRaw? : Option String) (useExtraction : Bool) (r : ProvRecord) :
    r ∈ outcomeRecs (processStructured p i row category? notesRaw? useExtraction) →
      r.srcIndex = i := by
  intro h
  unfold processStructured at h
  split at h
  · simp [outcomeRecs] at h
  · split at h
    · simp [outcomeRecs] at h
    · split at h
      · simp [outcomeRecs] at h
      · split at h
        · simp [outcomeRecs] at h
        · simp only [outcomeRecs, List.mem_singleton] at h
          subst h
          rfl

/-- Helper: records produced by the mode dispatch carry their source
row index. -/
theorem dispatchMode_srcIndex (ai : String → Option (List InferredTx)) (p : AdapterProfile)
    (i : ℕ) (row : Row) (category? notesRaw? : Option String) (r : ProvRecord) :
    r ∈ outcomeRecs (dispatchMode ai p i row category? notesRaw?) → r.srcIndex = i := by
  intro h
  unfold dispatchMode at h
  split at h
  · exact processStructured_srcIndex p i row _ _ false r h
  · exact processStructured_srcIndex p i row _ _ true r h
  · split at h
    · simp [outcomeRecs] at h
    · simp only [outcomeRecs, List.mem_map] at h
      obtain ⟨c, _, hc⟩ := h
      subst hc
      rfl

/-- Helper: every record produced from a row carries that row's
index. -/
theorem processRow_srcIndex (ai : String → Option (List InferredTx)) (p : AdapterProfile)
    (i : ℕ) (row : Row) (r : ProvRecord) :
    r ∈ outcomeRecs (processRow ai p i row) → r.srcIndex = i := by
  intro h
  unfold processRow at h
  dsimp only at h
  split at h
  · simp [outcomeRecs] at h
  · exact dispatchMode_srcIndex ai p i row _ _ r h

/-- Helper: the indices enumerated by `runRows` start at the given
counter. -/
theorem runRows_index_ge (ai : String → Option (List InferredTx)) (p : AdapterProfile) :
    ∀ (rows : List Row) (n j : ℕ) (o : RowOutcome),
      (j, o) ∈ runRows ai p n rows → n ≤ j := by
  intro rows
  induction rows with
  | nil => intro n j o h; simp [runRows] at h
  | cons row rest ih =>
    intro n j o h
    rw [runRows] at h
    rcases List.mem_cons.mp h with h1 | h2
    · rw [Prod.mk.injEq] at h1
      omega
    · have := ih (n + 1) j o h2
      omega

/-- Helper: `runRows` lists each index at most once. -/
theorem runRows_index_unique (ai : String → Option (List InferredTx)) (p : AdapterProfile) :
    ∀ (rows : List Row) (n j : ℕ) (o₁ o₂ : RowOutcome),
      (j, o₁) ∈ runRows ai p n rows → (j, o₂) ∈ runRows ai p n rows → o₁ = o₂ := by
  intro rows
  induction rows with
  | nil => intro n j o₁ o₂ h; simp [runRows] at h
  | cons row rest ih =>
    intro n j o₁ o₂ h1 h2
    rw [runRows] at h1 h2
    rcases List.mem_cons.mp h1 with ha | ha <;> rcases List.mem_cons.mp h2 with hb | hb
    · rw [Prod.mk.injEq] at ha hb
      rw [ha.2, hb.2]
    · rw [Prod.mk.injEq] at ha
      have := runRows_index_ge ai p rest (n + 1) j o₂ hb
      omega
    · rw [Prod.mk.injEq] at hb
      have := runRows_index_ge ai p rest (n + 1) j o₁ ha
      omega
    · exact ih (n + 1) j o₁ o₂ ha hb

/-- Helper: every `runRows` entry is the outcome of `processRow` on
some row, at the entry's own index. -/
theorem runRows_mem_processRow (ai : String → Option (List InferredTx)) (p : AdapterProfile) :
    ∀ (rows : List Row) (n j : ℕ) (o : RowOutcome),
      (j, o) ∈ runRows ai p n rows → ∃ row, o = processRow ai p j row := by
  intro rows
  induction rows with
  | nil => intro n j o h; simp [runRows] at h
  | cons row rest ih =>
    intro n j o h
    rw [runRows] at h
    rcases List.mem_cons.mp h with h1 | h2
    · rw [Prod.mk.injEq] at h1
      exact ⟨row, by rw [h1.2, ← h1.1]⟩
    · exact ih (n + 1) j o h2

/-- Helper: decomposition of `runRows` around one distinguished row —
each row's entry is computed from that row alone, so altering one row
leaves every other entry untouched. -/
theorem runRows_append (ai : String → Option (List InferredTx)) (p : AdapterProfile) :
    ∀ (rows₁ : List Row) (n : ℕ) (row : Row) (rows₂ : List Row),
      runRows ai p n (rows₁ ++ row :: rows₂) =
        runRows ai p n rows₁ ++
          (n + rows₁.length, processRow ai p (n + rows₁.length) row) ::
            runRows ai p (n + rows₁.length + 1) rows₂ := by
  intro rows₁
  induction rows₁ with
  | nil => intro n row rows₂; simp [runRows]
  | cons a as ih =>
    intro n row rows₂
    have harith1 : n + (a :: as).length = (n + 1) + as.length := by
      simp [List.length_cons]; omega
    rw [List.cons_append, runRows, ih (n + 1) row rows₂, runRows, harith1]
    simp [List.cons_append]

/-- Helper: membership in an insertion. -/
theorem mem_insertBy {α : Type} (le : α → α → Bool) (x : α) :
    ∀ (l : List α) (y : α), y ∈ insertBy le x l → y = x ∨ y ∈ l := by
  intro l
  induction l with
  | nil => intro y h; simp [insertBy] at h; exact Or.inl h
  | cons a as ih =>
    intro y h
    rw [insertBy] at h
    split at h
    · rcases List.mem_cons.mp h with h1 | h2
      · exact Or.inl h1
      · exact Or.inr h2
    · rcases List.mem_cons.mp h with h1 | h2
      · exact Or.inr (h1 ▸ List.mem_cons_self a as)
      · rcases ih y h2 with h3 | h3
        · exact Or.inl h3
        · exact Or.inr (List.mem_cons_of_mem a h3)

/-- Helper: sorting introduces no new elements. -/
theorem mem_sortBy {α : Type} (le : α → α → Bool) :
    ∀ (l : List α) (y : α), y ∈ sortBy le l → y ∈ l := by
  intro l
  induction l with
  | nil => intro y h; simp [sortBy] at h
  | cons a as ih =>
    intro y h
    rcases mem_insertBy le a (sortBy le as) y h with h1 | h2
    · exact h1 ▸ List.mem_cons_self a as
    · exact List.mem_cons_of_mem a (ih y h2)

/-- Helper: insertion grows the length by one. -/
theorem length_insertBy {α : Type} (le : α → α → Bool) (x : α) :
    ∀ (l : List α), (insertBy le x l).length = l.length + 1 := by
  intro l
  induction l with
  | nil => rfl
  | cons a as ih =>
    rw [insertBy]
    split
    · simp
    · simp [ih]

/-- Helper: sorting preserves the length. -/
theorem length_sortBy {α : Type} (le : α → α → Bool) :
    ∀ (l : List α), (sortBy le l).length = l.length := by
  intro l
  induction l with
  | nil => rfl
  | cons a as ih =>
    have hdef : sortBy le (a :: as) = insertBy le a (sortBy le as) := rfl
    rw [hdef, length_insertBy, ih, List.length_cons]

/-- Helper: members of groups after inserting one element. -/
theorem addToGroups_members {α κ : Type} [DecidableEq κ] (k : κ) (r : α) :
    ∀ (gs : List (κ × List α)) (kg : κ × List α) (x : α),
      kg ∈ addToGroups k r gs → x ∈ kg.2 → x = r ∨ ∃ kg' ∈ gs, x ∈ kg'.2 := by
  intro gs
  induction gs with
  | nil =>
    intro kg x hkg hx
    simp [addToGroups] at hkg
    subst hkg
    simp at hx
    exact Or.inl hx
  | cons g rest ih =>
    intro kg x hkg hx
    obtain ⟨k', gl⟩ := g
    rw [addToGroups] at hkg
    split at hkg
    · rcases List.mem_cons.mp hkg with h1 | h1
      · subst h1
        rcases List.mem_append.mp hx with h2 | h2
        · exact Or.inr ⟨(k', gl), List.mem_cons_self _ _, h2⟩
        · simp at h2
          exact Or.inl h2
      · exact Or.inr ⟨kg, List.mem_cons_of_mem _ h1, hx⟩
    · rcases List.mem_cons.mp hkg with h1 | h1
      · exact Or.inr ⟨kg, by rw [h1]; exact List.mem_cons_self _ _, hx⟩
      · rcases ih kg x h1 hx with h2 | ⟨kg', hkg', hx'⟩
        · exact Or.inl h2
        · exact Or.inr ⟨kg', List.mem_cons_of_mem _ hkg', hx'⟩

/-- Helper: the grouping fold keeps every group member inside the
reference set. -/
theorem groupByKey_fold_members {α κ : Type} [DecidableEq κ] (key : α → κ) (S : α → Prop) :
    ∀ (l : List α) (gs : List (κ × List α)),
      (∀ kg ∈ gs, ∀ x ∈ kg.2, S x) → (∀ r ∈ l, S r) →
      ∀ kg ∈ l.foldl (fun acc r => addToGroups (key r) r acc) gs, ∀ x ∈ kg.2, S x := by
  intro l
  induction l with
  | nil => intro gs hgs _ kg hkg x hx; exact hgs kg hkg x hx
  | cons a as ih =>
    intro gs hgs hl kg hkg x hx
    refine ih (addToGroups (key a) a gs) ?_ (fun r hr => hl r (List.mem_cons_of_mem a hr))
      kg hkg x hx
    intro kg' hkg' y hy
    rcases addToGroups_members (key a) a gs kg' y hkg' hy with h1 | ⟨kg'', hkg'', hy'⟩
    · exact h1 ▸ hl a (List.mem_cons_self a as)
    · exact hgs kg'' hkg'' y hy'

/-- Helper: every member of every dedup group is a batch record. -/
theorem groupByKey_members {α κ : Type} [DecidableEq κ] (key : α → κ) (l : List α) :
    ∀ kg ∈ groupByKey key l, ∀ x ∈ kg.2, x ∈ l := by
  intro kg hkg x hx
  exact groupByKey_fold_members key (fun y => y ∈ l) l [] (by simp) (fun r hr => hr) kg hkg x hx

/-- Helper: every member of every sweep cluster comes from the
accumulator, the open cluster, or the remaining input. -/
theorem sweepGo_members (tol : ℤ) :
    ∀ (rest current : List ProvRecord) (lastSec : ℤ) (acc : List (List ProvRecord))
      (c : List ProvRecord), c ∈ sweepGo tol rest current lastSec acc →
      ∀ x ∈ c, (∃ c' ∈ acc, x ∈ c') ∨ x ∈ current ∨ x ∈ rest := by
  intro rest
  induction rest with
  | nil =>
    intro current lastSec acc c hc x hx
    rw [sweepGo] at hc
    rcases List.mem_append.mp hc with h1 | h1
    · exact Or.inl ⟨c, h1, hx⟩
    · simp at h1
      subst h1
      exact Or.inr (Or.inl (List.mem_reverse.mp hx))
  | cons r rs ih =>
    intro current lastSec acc c hc x hx
    rw [sweepGo] at hc
    split at hc
    · rcases ih (r :: current) r.time.seconds acc c hc x hx with h1 | h1 | h1
      · exact Or.inl h1
      · rcases List.mem_cons.mp h1 with h2 | h2
        · exact Or.inr (Or.inr (h2 ▸ List.mem_cons_self r rs))
        · exact Or.inr (Or.inl h2)
      · exact Or.inr (Or.inr (List.mem_cons_of_mem r h1))
    · rcases ih [r] r.time.seconds (acc ++ [current.reverse]) c hc x hx with h1 | h1 | h1
      · obtain ⟨c', hc', hx'⟩ := h1
        rcases List.mem_append.mp hc' with h2 | h2
        · exact Or.inl ⟨c', h2, hx'⟩
        · simp at h2
          subst h2
          exact Or.inr (Or.inl (List.mem_reverse.mp hx'))
      · simp at h1
        exact Or.inr (Or.inr (h1 ▸ List.mem_cons_self r rs))
      · exact Or.inr (Or.inr (List.mem_cons_of_mem r h1))

/-- Helper: every member of every sweep cluster is an input record. -/
theorem sweep_members (tol : ℤ) (l : List ProvRecord) :
    ∀ c ∈ sweep tol l, ∀ x ∈ c, x ∈ l := by
  intro c hc x hx
  cases l with
  | nil => simp [sweep] at hc
  | cons r rs =>
    rw [sweep] at hc
    rcases sweepGo_members tol rs [r] r.time.seconds [] c hc x hx with h1 | h1 | h1
    · simp at h1
    · simp at h1
      exact h1 ▸ List.mem_cons_self r rs
    · exact List.mem_cons_of_mem r h1

/-- Helper: the survivor is a member of its cluster. -/
theorem pickSurvivor_mem :
    ∀ (rs : List ProvRecord) (best : ProvRecord), pickSurvivor best rs ∈ best :: rs := by
  intro rs
  induction rs with
  | nil => intro best; simp [pickSurvivor]
  | cons r rest ih =>
    intro best
    rw [pickSurvivor]
    split
    · exact List.mem_cons_of_mem best (ih r)
    · rcases List.mem_cons.mp (ih best) with h1 | h1
      · rw [h1]
        exact List.mem_cons_self _ _
      · exact List.mem_cons_of_mem best (List.mem_cons_of_mem r h1)

/-- Helper: a merged cluster's survivor keeps the source-row index of
a cluster member. -/
theorem clusterMerge_srcIndex (c : List ProvRecord) (s : ProvRecord) :
    clusterMerge c = some s → ∃ x ∈ c, s.srcIndex = x.srcIndex := by
  intro h
  cases c with
  | nil => simp [clusterMerge] at h
  | cons r rest =>
    rw [clusterMerge] at h
    have hs := Option.some.inj h
    refine ⟨pickSurvivor r rest, pickSurvivor_mem rest r, ?_⟩
    rw [← hs]

/-- Helper: every deduplicated record carries the source-row index of
some input record. -/
theorem dedup_srcIndex (spec : DedupSpec) (recs : List ProvRecord) :
    ∀ r ∈ dedup spec recs, ∃ r₀ ∈ recs, r.srcIndex = r₀.srcIndex := by
  intro r hr
  unfold dedup at hr
  split at hr
  · have hr' := mem_sortBy pidLe _ r hr
    rw [List.mem_flatMap] at hr'
    obtain ⟨kg, hkg, hrc⟩ := hr'
    rw [List.mem_filterMap] at hrc
    obtain ⟨c, hc, hmerge⟩ := hrc
    obtain ⟨x, hx, hsrc⟩ := clusterMerge_srcIndex c r hmerge
    have hx2 : x ∈ sortBy timeLe kg.2 :=
      sweep_members (spec.time_tolerance_seconds : ℤ) (sortBy timeLe kg.2) c hc x hx
    have hx3 : x ∈ kg.2 := mem_sortBy timeLe kg.2 x hx2
    exact ⟨x, groupByKey_members (dedupKey spec) recs kg hkg x hx3, hsrc⟩
  · exact ⟨r, hr, rfl⟩

/-- Helper: numbering the provisional batch does not change source-row
indices. -/
theorem assignPids_srcIndex :
    ∀ (L : List ProvRecord) (n : ℕ) (r : ProvRecord),
      r ∈ assignPids n L → ∃ r₀ ∈ L, r.srcIndex = r₀.srcIndex := by
  intro L
  induction L with
  | nil => intro n r h; simp [assignPids] at h
  | cons a as ih =>
    intro n r h
    rw [assignPids] at h
    rcases List.mem_cons.mp h with h1 | h1
    · exact ⟨a, List.mem_cons_self a as, by rw [h1]⟩
    · obtain ⟨r₀, hr₀, hsrc⟩ := ih (n + 1) r h1
      exact ⟨r₀, List.mem_cons_of_mem a hr₀, hsrc⟩

/-- Helper: every finalized record's provenance points at the
source-row index of a surviving provisional record. -/
theorem finalize_source_row (p : AdapterProfile) :
    ∀ (L : List ProvRecord) (c : ℕ) (t : ℤ) (r : CanonicalRecord),
      r ∈ finalize p c t L → ∃ r₀ ∈ L, r.source_row = r₀.srcIndex := by
  intro L
  induction L with
  | nil => intro c t r h; simp [finalize] at h
  | cons a as ih =>
    intro c t r h
    rw [finalize] at h
    rcases List.mem_cons.mp h with h1 | h1
    · exact ⟨a, List.mem_cons_self a as, by rw [h1]; rfl⟩
    · obtain ⟨r₀, hr₀, hsrc⟩ := ih (c + 1) t r h1
      exact ⟨r₀, List.mem_cons_of_mem a hr₀, hsrc⟩

/-- Helper: a diagnostic entry carries the index of the row that
produced it. -/
theorem outcomeDiag_rowIndex (i : ℕ) (o : RowOutcome) (dg : Diagnostic) :
    outcomeDiag i o = some dg → dg.rowIndex = i := by
  intro h
  cases o with
  | excluded k => rw [outcomeDiag] at h; rw [← Option.some.inj h]
  | failed st r => rw [outcomeDiag] at h; rw [← Option.some.inj h]
  | ok recs => simp [outcomeDiag] at h

/-- Helper: diagnostics of a batch tail carry indices at or above the
tail's starting counter. -/
theorem diagnosticsOf_index_ge (ai : String → Option (List InferredTx)) (p : AdapterProfile) :
    ∀ (rows : List Row) (n : ℕ) (dg : Diagnostic),
      dg ∈ diagnosticsOf (runRows ai p n rows) → n ≤ dg.rowIndex := by
  intro rows
  induction rows with
  | nil => intro n dg h; simp [runRows, diagnosticsOf] at h
  | cons row rest ih =>
    intro n dg h
    rw [runRows, diagnosticsOf, List.filterMap_cons] at h
    rcases hdiag : outcomeDiag n (processRow ai p n row) with _ | dg0
    · rw [hdiag] at h
      exact le_trans (Nat.le_succ n) (ih (n + 1) dg h)
    · rw [hdiag] at h
      rcases List.mem_cons.mp h with h1 | h1
      · rw [h1]
        exact le_of_eq (outcomeDiag_rowIndex n _ dg0 hdiag).symm
      · exact le_trans (Nat.le_succ n) (ih (n + 1) dg h1)

/-- Helper: a row with an exclusion outcome contributes exactly one
diagnostic at its index — the one logging the matched keyword. -/
theorem diagnosticsOf_filter_excluded (ai : String → Option (List InferredTx))
    (p : AdapterProfile) :
    ∀ (rows : List Row) (n i : ℕ) (k : String),
      (i, RowOutcome.excluded k) ∈ runRows ai p n rows →
      (diagnosticsOf (runRows ai p n rows)).filter (fun dg => dg.rowIndex == i) =
        [⟨i, "exclusion", k⟩] := by
  intro rows
  induction rows with
  | nil => intro n i k h; simp [runRows] at h
  | cons row rest ih =>
    intro n i k h
    rw [runRows] at h
    rw [runRows, diagnosticsOf, List.filterMap_cons]
    rcases List.mem_cons.mp h with h1 | h1
    · rw [Prod.mk.injEq] at h1
      obtain ⟨hn, ho⟩ := h1
      rw [← ho, outcomeDiag]
      have hfilter :
          (diagnosticsOf (runRows ai p (n + 1) rest)).filter (fun dg => dg.rowIndex == i)
            = [] := by
        rw [List.filter_eq_nil_iff]
        intro dg hdg
        have := diagnosticsOf_index_ge ai p rest (n + 1) dg hdg
        simp only [beq_iff_eq]
        omega
      rw [List.filter_cons]
      have hcond : ((⟨n, "exclusion", k⟩ : Diagnostic).rowIndex == i) = true := by
        simp only [beq_iff_eq]
        omega
      rw [hcond]
      simp only [if_true, diagnosticsOf] at hfilter ⊢
      rw [hfilter, hn]
    · have hge := runRows_index_ge ai p rest (n + 1) i _ h1
      have hne : n ≠ i := by omega
      rcases hdiag : outcomeDiag n (processRow ai p n row) with _ | dg0
      · exact ih (n + 1) i k h1
      · rw [List.filter_cons]
        have hcond : (dg0.rowIndex == i) = false := by
          have := outcomeDiag_rowIndex n _ dg0 hdiag
          simp only [beq_eq_false_iff_ne]
          omega
        rw [hcond]
        simp only [Bool.false_eq_true, if_false]
        exact ih (n + 1) i k h1

/-- Claim C7: a failure local to a single row never aborts the batch:
an invalid profile is the only batch-fatal error, a valid profile
always yields a result, a failed row contributes no record and exactly
one diagnostic carrying its stage and reason, and each row's entry in
the batch is computed from that row alone (so the other rows' outcomes
are untouched by any one row's failure). -/
theorem C7_row_failures_never_abort_batch :
    (∀ (ai : String → Option (List InferredTx)) (p : AdapterProfile) (rows : List Row)
        (c : ℕ) (t : ℤ), validateProfile p = false →
        applyProfile ai p rows c t = .error "ProfileValidationError") ∧
    (∀ (ai : String → Option (List InferredTx)) (p : AdapterProfile) (rows : List Row)
        (c : ℕ) (t : ℤ), validateProfile p = true →
        ∃ out, applyProfile ai p rows c t = .ok out) ∧
    (∀ (ai : String → Option (List InferredTx)) (p : AdapterProfile) (i : ℕ) (row : Row)
        (st rsn : String), processRow ai p i row = .failed st rsn →
        outcomeRecs (processRow ai p i row) = [] ∧
        outcomeDiag i (processRow ai p i row) = some ⟨i, st, rsn⟩) ∧
    (∀ (ai : String → Option (List InferredTx)) (p : AdapterProfile) (n : ℕ)
        (rows₁ : List Row) (row : Row) (rows₂ : List Row),
        runRows ai p n (rows₁ ++ row :: rows₂) =
          runRows ai p n rows₁ ++
            (n + rows₁.length, processRow ai p (n + rows₁.length) row) ::
              runRows ai p (n + rows₁.length + 1) rows₂) := by
  refine ⟨?_, ?_, ?_, ?_⟩
  · intro ai p rows c t h
    unfold applyProfile
    simp [h]
  · intro ai p rows c t h
    refine ⟨(finalize p c t (dedup p.cleaning.deduplication
      (assignPids 0 ((provisionalOf (runRows ai p 0 rows)).map (cleanRecord p.cleaning)))),
      diagnosticsOf (runRows ai p 0 rows)), ?_⟩
    unfold applyProfile
    rw [if_pos h]
  · intro ai p i row st rsn h
    rw [h]
    exact ⟨rfl, rfl⟩
  · intro ai p n rows₁ row rows₂
    exact runRows_append ai p rows₁ n row rows₂

/-- Claim C8: a row matched by an exclusion keyword produces zero
canonical records and exactly one diagnostic entry logging the matched
keyword — never both an excluded and an included outcome for the same
row. -/
theorem C8_excluded_rows_drop_with_one_diagnostic :
    ∀ (ai : String → Option (List InferredTx)) (p : AdapterProfile) (rows : List Row)
      (c : ℕ) (t : ℤ) (recs : List CanonicalRecord) (ds : List Diagnostic) (i : ℕ)
      (k : String),
      applyProfile ai p rows c t = .ok (recs, ds) →
      (i, RowOutcome.excluded k) ∈ runRows ai p 0 rows →
      ds.filter (fun dg => dg.rowIndex == i) = [⟨i, "exclusion", k⟩] ∧
      ∀ r ∈ recs, r.source_row ≠ i := by
  intro ai p rows c t recs ds i k happ hmem
  unfold applyProfile at happ
  split at happ
  · rw [Except.ok.injEq, Prod.mk.injEq] at happ
    obtain ⟨hrecs, hds⟩ := happ
    constructor
    · rw [← hds]
      exact diagnosticsOf_filter_excluded ai p rows 0 i k hmem
    · intro r hr
      rw [← hrecs] at hr
      obtain ⟨r₁, hr₁, hsrc₁⟩ := finalize_source_row p _ c t r hr
      obtain ⟨r₂, hr₂, hsrc₂⟩ := dedup_srcIndex p.cleaning.deduplication _ r₁ hr₁
      obtain ⟨r₃, hr₃, hsrc₃⟩ := assignPids_srcIndex _ 0 r₂ hr₂
      rw [List.mem_map] at hr₃
      obtain ⟨r₄, hr₄, hclean⟩ := hr₃
      have hsrc₄ : r₃.srcIndex = r₄.srcIndex := by rw [← hclean]; rfl
      rw [provisionalOf, List.mem_flatMap] at hr₄
      obtain ⟨q, hq, hrq⟩ := hr₄
      obtain ⟨j, o⟩ := q
      obtain ⟨row', ho⟩ := runRows_mem_processRow ai p rows 0 j o hq
      have hsrc₅ : r₄.srcIndex = j := by
        refine processRow_srcIndex ai p j row' r₄ ?_
        rw [← ho]
        exact hrq
      intro hcontra
      have hji : j = i := by
        rw [hsrc₁, hsrc₂, hsrc₃, hsrc₄, hsrc₅] at hcontra
        exact hcontra
      subst hji
      have houts : o = RowOutcome.excluded k :=
        runRows_index_unique ai p rows 0 j o (RowOutcome.excluded k) hq hmem
      rw [houts] at hrq
      simp [outcomeRecs] at hrq
  · simp at happ

/-- Witness for C7 at concrete inputs: a valid profile yields a batch
result, and the fixture row with a malformed amount yields no record
and exactly one diagnostic with the recorded reason. -/
theorem C7_row_failures_never_abort_batch_witness :
    (∃ out, applyProfile aiNone fixtureProfile [stdRow] 0 0 = .ok out) ∧
    outcomeRecs (processRow aiNone fixtureProfile 0 badAmountRow) = [] ∧
    outcomeDiag 0 (processRow aiNone fixtureProfile 0 badAmountRow)
      = some ⟨0, "ParseError", "malformed amount"⟩ := by
  have hv : validateProfile fixtureProfile = true := by
    norm_num [validateProfile, fixtureProfile, stdColumns]
  have hfail : processRow aiNone fixtureProfile 0 badAmountRow
      = .failed "ParseError" "malformed amount" := rfl
  refine ⟨C7_row_failures_never_abort_batch.2.1 aiNone fixtureProfile [stdRow] 0 0 hv, ?_, ?_⟩
  · exact (C7_row_failures_never_abort_batch.2.2.1 aiNone fixtureProfile 0 badAmountRow
      "ParseError" "malformed amount" hfail).1
  · exact (C7_row_failures_never_abort_batch.2.2.1 aiNone fixtureProfile 0 badAmountRow
      "ParseError" "malformed amount" hfail).2

/-- Witness for C8 at concrete inputs: the fixture row whose category
matches the `"transfer"` exclusion keyword yields zero canonical
records and exactly the one exclusion diagnostic. -/
theorem C8_excluded_rows_drop_with_one_diagnostic_witness :
    ([⟨0, "exclusion", "transfer"⟩] : List Diagnostic).filter (fun dg => dg.rowIndex == 0)
      = [⟨0, "exclusion", "transfer"⟩] ∧
    ∀ r ∈ ([] : List CanonicalRecord), r.source_row ≠ 0 := by
  have hv : validateProfile exclProfile = true := by
    norm_num [validateProfile, exclProfile, stdColumns]
  have happ : applyProfile aiNone exclProfile [exclRow] 0 0
      = .ok ([], [⟨0, "exclusion", "transfer"⟩]) := by
    unfold applyProfile
    rw [if_pos hv]
    rfl
  have hmem : (0, RowOutcome.excluded "transfer") ∈ runRows aiNone exclProfile 0 [exclRow] := by
    have hrun : runRows aiNone exclProfile 0 [exclRow]
        = [(0, RowOutcome.excluded "transfer")] := rfl
    rw [hrun]
    exact List.mem_singleton.mpr rfl
  exact C8_excluded_rows_drop_with_one_diagnostic aiNone exclProfile [exclRow] 0 0 []
    [⟨0, "exclusion", "transfer"⟩] 0 "transfer" happ hmem

/-- Helper: deduplicating a two-record batch yields one survivor
exactly when the records agree on the configured match fields and
their transaction times are within the tolerance window; otherwise
both records survive. -/
theorem dedup_pair_length (spec : DedupSpec) (a b : ProvRecord) (hsp : spec.enabled = true) :
    (dedup spec [a, b]).length =
      if dedupKey spec a = dedupKey spec b ∧
          (a.time.seconds - b.time.seconds).natAbs ≤ spec.time_tolerance_seconds
      then 1 else 2 := by
  unfold dedup
  rw [if_pos hsp, length_sortBy]
  by_cases hk : dedupKey spec b = dedupKey spec a
  · have h1 : groupByKey (dedupKey spec) [a, b] = [(dedupKey spec a, [a, b])] := by
      simp [groupByKey, addToGroups, hk]
    rw [h1, List.flatMap_cons, List.flatMap_nil, List.append_nil]
    by_cases ho : timeLe a b = true
    · have hab : a.time.seconds ≤ b.time.seconds := by
        rw [timeLe, Bool.or_eq_true, Bool.and_eq_true, decide_eq_true_eq, decide_eq_true_eq,
          decide_eq_true_eq] at ho
        rcases ho with h | ⟨h, _⟩ <;> omega
      have hsort : sortBy timeLe [a, b] = [a, b] := by
        have hdef : sortBy timeLe [a, b] = insertBy timeLe a [b] := rfl
        rw [hdef, insertBy, if_pos ho]
      rw [hsort]
      have hdef2 : sweep (spec.time_tolerance_seconds : ℤ) [a, b]
          = sweepGo (spec.time_tolerance_seconds : ℤ) [b] [a] a.time.seconds [] := rfl
      by_cases hgap : b.time.seconds - a.time.seconds ≤ (spec.time_tolerance_seconds : ℤ)
      · have hsweep : sweep (spec.time_tolerance_seconds : ℤ) [a, b] = [[a, b]] := by
          rw [hdef2, sweepGo, if_pos hgap, sweepGo]
          rfl
        rw [hsweep, if_pos ⟨hk.symm, by omega⟩]
        simp [clusterMerge]
      · have hsweep : sweep (spec.time_tolerance_seconds : ℤ) [a, b] = [[a], [b]] := by
          rw [hdef2, sweepGo, if_neg hgap, sweepGo]
          rfl
        rw [hsweep, if_neg (by rintro ⟨-, habs⟩; omega)]
        simp [clusterMerge]
    · have ho' : timeLe a b = false := by
        revert ho
        cases timeLe a b <;> simp
      have hba : b.time.seconds ≤ a.time.seconds := by
        rw [timeLe] at ho'
        simp only [Bool.or_eq_false_iff, Bool.and_eq_false_iff, decide_eq_false_iff_not] at ho'
        omega
      have hsort : sortBy timeLe [a, b] = [b, a] := by
        have hdef : sortBy timeLe [a, b] = insertBy timeLe a [b] := rfl
        rw [hdef, insertBy, ho']
        rfl
      rw [hsort]
      have hdef2 : sweep (spec.time_tolerance_seconds : ℤ) [b, a]
          = sweepGo (spec.time_tolerance_seconds : ℤ) [a] [b] b.time.seconds [] := rfl
      by_cases hgap : a.time.seconds - b.time.seconds ≤ (spec.time_tolerance_seconds : ℤ)
      · have hsweep : sweep (spec.time_tolerance_seconds : ℤ) [b, a] = [[b, a]] := by
          rw [hdef2, sweepGo, if_pos hgap, sweepGo]
          rfl
        rw [hsweep, if_pos ⟨hk.symm, by omega⟩]
        simp [clusterMerge]
      · have hsweep : sweep (spec.time_tolerance_seconds : ℤ) [b, a] = [[b], [a]] := by
          rw [hdef2, sweepGo, if_neg hgap, sweepGo]
          rfl
        rw [hsweep, if_neg (by rintro ⟨-, habs⟩; omega)]
        simp [clusterMerge]
  · have h1 : groupByKey (dedupKey spec) [a, b]
        = [(dedupKey spec a, [a]), (dedupKey spec b, [b])] := by
      simp [groupByKey, addToGroups, hk]
    rw [h1, if_neg (by rintro ⟨hkk, -⟩; exact hk hkk.symm)]
    simp [sortBy, insertBy, sweep, sweepGo, clusterMerge]

/-- Helper: the survivor of the fixture pair with confidences 7/10 and
9/10 is the higher-confidence record. -/
theorem pickSurvivor_confidence_fixture :
    pickSurvivor (mkDedupProv 0 0 0 (7 / 10)) [mkDedupProv 1 1 30 (9 / 10)]
      = mkDedupProv 1 1 30 (9 / 10) := by
  have hb : betterRecord (mkDedupProv 1 1 30 (9 / 10)) (mkDedupProv 0 0 0 (7 / 10)) = true := by
    rw [betterRecord]
    have h : decide ((mkDedupProv 0 0 0 (7 / 10)).confidence
        < (mkDedupProv 1 1 30 (9 / 10)).confidence) = true := by
      rw [decide_eq_true_eq]
      show (7 : ℚ) / 10 < 9 / 10
      norm_num
    rw [h, Bool.true_or]
  rw [pickSurvivor, if_pos hb, pickSurvivor]

/-- Helper: merging the fixture pair keeps the higher-confidence
record, with the other recorded as merged-away provenance. -/
theorem clusterMerge_confidence_fixture :
    clusterMerge [mkDedupProv 0 0 0 (7 / 10), mkDedupProv 1 1 30 (9 / 10)]
      = some { mkDedupProv 1 1 30 (9 / 10) with mergedFrom := [0] } := by
  simp only [clusterMerge, pickSurvivor_confidence_fixture]
  rfl

/-- Claim C4: two records in a batch are duplicates iff they agree on
every configured match field and their transaction times differ by at
most the tolerance; the time-sorted sweep merges transitively (0, 50,
100 seconds collapse under tolerance 60 although the extremes are 100
apart); exactly one record survives per group — the one with highest
confidence, ties broken by earliest transaction time then original row
order — and concretely two otherwise-identical rows 30 seconds apart
collapse under tolerance 60 but both survive under tolerance 0. -/
theorem C4_dedup_window_transitive_and_survivor :
    (∀ (spec : DedupSpec) (a b : ProvRecord), spec.enabled = true →
        ((dedup spec [a, b]).length = 1 ↔
          (dedupKey spec a = dedupKey spec b ∧
            (a.time.seconds - b.time.seconds).natAbs ≤ spec.time_tolerance_seconds))) ∧
    dedup (ddSpec 60) [mkDedupProv 0 0 0 1, mkDedupProv 1 1 30 1]
      = [{ mkDedupProv 0 0 0 1 with mergedFrom := [1] }] ∧
    dedup (ddSpec 0) [mkDedupProv 0 0 0 1, mkDedupProv 1 1 30 1]
      = [mkDedupProv 0 0 0 1, mkDedupProv 1 1 30 1] ∧
    dedup (ddSpec 60) [mkDedupProv 0 0 0 1, mkDedupProv 1 1 50 1, mkDedupProv 2 2 100 1]
      = [{ mkDedupProv 0 0 0 1 with mergedFrom := [1, 2] }] ∧
    dedup (ddSpec 60) [mkDedupProv 0 0 0 (7 / 10), mkDedupProv 1 1 30 (9 / 10)]
      = [{ mkDedupProv 1 1 30 (9 / 10) with mergedFrom := [0] }] ∧
    dedup (ddSpec 60) [mkDedupProv 0 0 0 1, mkDedupProv 1 1 0 1]
      = [{ mkDedupProv 0 0 0 1 with mergedFrom := [1] }] := by
  refine ⟨?_, rfl, rfl, rfl, ?_, rfl⟩
  · intro spec a b hsp
    rw [dedup_pair_length spec a b hsp]
    by_cases hc : dedupKey spec a = dedupKey spec b ∧
        (a.time.seconds - b.time.seconds).natAbs ≤ spec.time_tolerance_seconds
    · simp [hc]
    · simp [hc]
  · have h2 : dedup (ddSpec 60) [mkDedupProv 0 0 0 (7 / 10), mkDedupProv 1 1 30 (9 / 10)]
        = sortBy pidLe (List.filterMap clusterMerge
            [[mkDedupProv 0 0 0 (7 / 10), mkDedupProv 1 1 30 (9 / 10)]]) := rfl
    rw [h2, List.filterMap_cons, clusterMerge_confidence_fixture, List.filterMap_nil]
    rfl

/-- Witness for C4 at concrete inputs: with tolerance 60 the fixture
pair 30 seconds apart collapses to one survivor; with tolerance 0 it
does not. -/
theorem C4_dedup_window_transitive_and_survivor_witness :
    (dedup (ddSpec 60) [mkDedupProv 0 0 0 1, mkDedupProv 1 1 30 1]).length = 1 ∧
    ¬(dedup (ddSpec 0) [mkDedupProv 0 0 0 1, mkDedupProv 1 1 30 1]).length = 1 := by
  constructor
  · exact (C4_dedup_window_transitive_and_survivor.1 (ddSpec 60)
      (mkDedupProv 0 0 0 1) (mkDedupProv 1 1 30 1) rfl).mpr ⟨rfl, by decide⟩
  · intro hcontra
    have h := (C4_dedup_window_transitive_and_survivor.1 (ddSpec 0)
      (mkDedupProv 0 0 0 1) (mkDedupProv 1 1 30 1) rfl).mp hcontra
    exact absurd h.2 (by decide)
